import Mathlib

/-!
Verification development for the document-structure pipeline of the
research-assistant repository.  JavaScript strings are modelled as `List Char`
(ASCII working set); timestamps are modelled as `Nat` values passed in
explicitly.  Every definition below is translated directly from the JavaScript
source files; definitions keep the source names.
-/

/-- Character class of the JS regex `\s` restricted to the ASCII range
(space, tab, newline, carriage return, vertical tab, form feed). -/
def isJsWs (c : Char) : Bool :=
  c = ' ' || c = '\t' || c = '\n' || c = '\r' || c = Char.ofNat 11 || c = Char.ofNat 12

/-- Character class of the JS regex `\w`: letters, digits, underscore. -/
def isWordChar (c : Char) : Bool :=
  ('a' ≤ c && c ≤ 'z') || ('A' ≤ c && c ≤ 'Z') || ('0' ≤ c && c ≤ '9') || c = '_'

/-- Upper-case ASCII letter (`[A-Z]`). -/
def isUpper (c : Char) : Bool := 'A' ≤ c && c ≤ 'Z'

/-- ASCII digit (`\d`). -/
def isDigitC (c : Char) : Bool := '0' ≤ c && c ≤ '9'

/-- JS `String.prototype.trim()` on the ASCII whitespace set: drop whitespace
from both ends. -/
def jsTrim (l : List Char) : List Char :=
  ((l.dropWhile isJsWs).reverse.dropWhile isJsWs).reverse

/-! ## Structure Extractor: `buildHierarchy` (docxParser.js)

`buildHierarchy` walks the flat descriptor list once with an explicit stack of
`(level, id)` pairs: it pops every stacked entry whose level is `>=` the
current descriptor's level, takes the new top of stack (if any) as the parent,
and pushes the current descriptor.  The stack is modelled head-first (the JS
array's last element is the list head). -/

/-- One flat section descriptor as produced by `parseDocxTemplate` (the fields
`buildHierarchy` reads, plus the title which it copies through). -/
structure SectionDesc where
  sid : Nat
  level : Nat
  title : List Char
deriving DecidableEq, Repr

/-- A descriptor with the parent link added (`{...section, parentId}`). -/
structure HSection where
  sid : Nat
  level : Nat
  title : List Char
  parentId : Option Nat
deriving DecidableEq, Repr

/-- The `while` loop of `buildHierarchy`: pop stacked entries whose level is
`>=` the incoming level. -/
def popStack (stack : List (Nat × Nat)) (lvl : Nat) : List (Nat × Nat) :=
  stack.dropWhile (fun e => lvl ≤ e.1)

/-- The body of `buildHierarchy`'s single left-to-right pass. -/
def buildHierarchyAux : List SectionDesc → List (Nat × Nat) → List HSection
  | [], _ => []
  | s :: rest, stack =>
    let stack1 := popStack stack s.level
    ⟨s.sid, s.level, s.title, stack1.head?.map (fun e => e.2)⟩ ::
      buildHierarchyAux rest ((s.level, s.sid) :: stack1)

/-- `buildHierarchy` from `docxParser.js`: parent links for a flat list. -/
def buildHierarchy (flat : List SectionDesc) : List HSection :=
  buildHierarchyAux flat []

/-- Forget the parent link of an output entry. -/
def stripH (h : HSection) : SectionDesc := ⟨h.sid, h.level, h.title⟩

/-- The stack contents after processing a prefix of the input. -/
def stackOf (pre : List SectionDesc) : List (Nat × Nat) :=
  pre.foldl (fun st s => (s.level, s.sid) :: popStack st s.level) []

/-- `p` is recorded as the parent of `c` in the hierarchy output `out`. -/
def parentOf (out : List HSection) (p c : HSection) : Prop :=
  p ∈ out ∧ c ∈ out ∧ c.parentId = some p.sid

/-- A concrete template structure used to witness `buildHierarchy_spec`. -/
def flatEx : List SectionDesc :=
  [⟨1, 1, ['A']⟩, ⟨2, 2, ['B']⟩, ⟨3, 3, ['C']⟩, ⟨4, 2, ['D']⟩]

/-! ## Shared string helpers (JS semantics over `List Char`) -/

/-- The apostrophe character, built by code point. -/
def apos : Char := Char.ofNat 39

/-- The backquote character, built by code point. -/
def backquoteC : Char := Char.ofNat 96

/-- Left curly brace, built by code point. -/
def leftBrace : Char := Char.ofNat 123

/-- Right curly brace, built by code point. -/
def rightBrace : Char := Char.ofNat 125

/-- Lower-case an ASCII letter (for the JS `i` regex flag). -/
def lowerC (c : Char) : Char :=
  if 'A' ≤ c && c ≤ 'Z' then Char.ofNat (c.toNat + 32) else c

/-- Case-insensitive character comparison (ASCII). -/
def ciEq (a b : Char) : Bool := lowerC a = lowerC b

/-- Case-insensitive prefix test, as used by the `i`-flagged anchored regexes. -/
def ciIsPrefix : List Char → List Char → Bool
  | [], _ => true
  | _ :: _, [] => false
  | p :: ps, t :: ts => ciEq p t && ciIsPrefix ps ts

/-- First index at which `p` occurs case-insensitively in the text (the
leftmost match position of an unanchored `i`-flagged literal regex). -/
def ciFindIndex (p : List Char) : List Char → Option Nat
  | [] => if p.isEmpty then some 0 else none
  | c :: rest =>
    if ciIsPrefix p (c :: rest) then some 0
    else (ciFindIndex p rest).map (fun i => i + 1)

/-- JS `text.split(sep)` for a single-character separator. -/
def splitChar (sep : Char) : List Char → List (List Char)
  | [] => [[]]
  | c :: rest =>
    if c = sep then [] :: splitChar sep rest
    else
      match splitChar sep rest with
      | [] => [[c]]
      | h :: t2 => (c :: h) :: t2

/-- JS `text.split(sep)` for the two-character separator of two newlines
(leftmost, non-overlapping). -/
def splitNN : List Char → List (List Char)
  | [] => [[]]
  | [c] => [[c]]
  | c :: c2 :: rest =>
    if c = '\n' && c2 = '\n' then [] :: splitNN rest
    else
      match splitNN (c2 :: rest) with
      | [] => [[c]]
      | h :: t2 => (c :: h) :: t2

/-- JS `text.split(regex)` for the regex of one-or-more whitespace characters:
pieces between maximal whitespace runs (with empty edge pieces, as JS
produces). -/
def jsSplitWs : List Char → List (List Char)
  | [] => [[]]
  | c :: rest =>
    if isJsWs c then
      match rest with
      | r0 :: _ => if isJsWs r0 then jsSplitWs rest else [] :: jsSplitWs rest
      | [] => [[], []]
    else
      match jsSplitWs rest with
      | [] => [[c]]
      | h :: t2 => (c :: h) :: t2

mutual
/-- JS `text.split(regex)` for the regex of two-or-more newlines. -/
def splitNN2 : List Char → List (List Char)
  | [] => [[]]
  | c :: rest =>
    if c = '\n' && (match rest with | r0 :: _ => r0 = '\n' | [] => false) then
      [] :: splitNN2skip rest
    else
      match splitNN2 rest with
      | [] => [[c]]
      | h :: t2 => (c :: h) :: t2

/-- Skip the remainder of a newline run, then continue splitting. -/
def splitNN2skip : List Char → List (List Char)
  | [] => [[]]
  | c :: rest =>
    if c = '\n' then splitNN2skip rest
    else
      match splitNN2 rest with
      | [] => [[c]]
      | h :: t2 => (c :: h) :: t2
end

/-- JS `text.includes(pat)` substring test. -/
def containsSeq (pat : List Char) : List Char → Bool
  | [] => pat.isEmpty
  | c :: rest => pat.isPrefixOf (c :: rest) || containsSeq pat rest

/-! ## Renderer: inline emphasis parsing

Both `parseFormattedText` (docxGenerator.js) and `parseInlineFormatting`
(draftService.js) run the identical global regex alternation — double-starred
bold first, then single-starred italic — in an `exec` loop that emits the
plain gap before each match, then the marked run, and finally the remaining
plain text.  `findEmph` models one `exec` step: it returns the plain prefix,
the inner text, whether the match was bold, and the rest of the input. -/

def findEmph : List Char → Option (List Char × List Char × Bool × List Char)
  | [] => none
  | c :: rest =>
    if c = '*' then
      match rest with
      | r1 :: rest2 =>
        if r1 = '*' then
          let inner := rest2.takeWhile (fun d => d != '*')
          let after := rest2.drop inner.length
          if !inner.isEmpty && after.take 2 = ['*', '*'] then
            some ([], inner, true, after.drop 2)
          else
            (findEmph rest).map (fun q => ('*' :: q.1, q.2.1, q.2.2.1, q.2.2.2))
        else
          let inner := rest.takeWhile (fun d => d != '*')
          let after := rest.drop inner.length
          if !inner.isEmpty && after.take 1 = ['*'] then
            some ([], inner, false, after.drop 1)
          else
            (findEmph rest).map (fun q => ('*' :: q.1, q.2.1, q.2.2.1, q.2.2.2))
      | [] => none
    else
      (findEmph rest).map (fun q => (c :: q.1, q.2.1, q.2.2.1, q.2.2.2))

/-- One docx text run: text with optional bold/italics flags (absent flags on
a plain `TextRun` read as false). -/
structure DocxRun where
  text : List Char
  bold : Bool
  italics : Bool
deriving DecidableEq, Repr

/-- The `exec` loop of `parseFormattedText` (docxGenerator.js).  `fuel` only
bounds the recursion; `text.length + 1` always suffices because every match
consumes at least three characters. -/
def parseFormattedTextLoop : Nat → List Char → List DocxRun
  | 0, t => if t.isEmpty then [] else [⟨t, false, false⟩]
  | fuel + 1, t =>
    match findEmph t with
    | some (pre, inner, isBold, rest) =>
      (if pre.isEmpty then [] else [⟨pre, false, false⟩]) ++
      (if isBold then [⟨inner, true, false⟩] else [⟨inner, false, true⟩]) ++
      parseFormattedTextLoop fuel rest
    | none => if t.isEmpty then [] else [⟨t, false, false⟩]

/-- `parseFormattedText` from docxGenerator.js: markdown-style emphasis to a
run list, with a single plain run when nothing matched. -/
def parseFormattedText (text : List Char) : List DocxRun :=
  let runs := parseFormattedTextLoop (text.length + 1) text
  if runs.isEmpty then [⟨text, false, false⟩] else runs

/-! ## Content Tree Model (draftService.js)

ProseMirror-compatible nodes.  JSON objects are modelled by an inductive with
one constructor per node type; a forest type is used for child lists so that
all recursions are structural. -/

/-- Inline mark on a text node. -/
inductive PMMark where
  | bold
  | italic
deriving DecidableEq, Repr

mutual
/-- A ProseMirror-compatible content node as built by draftService.js.  The
`heading` constructor carries the optional `id` attribute; `sectionNode`
models the `section` node type with its `id` and `title` attributes. -/
inductive PMNode where
  | text (t : List Char) (marks : List PMMark)
  | paragraph (content : PMForest)
  | heading (level : Nat) (hid : Option Nat) (content : PMForest)
  | bulletList (content : PMForest)
  | orderedList (content : PMForest)
  | listItem (content : PMForest)
  | table (content : PMForest)
  | tableRow (content : PMForest)
  | tableHeader (content : PMForest)
  | tableCell (content : PMForest)
  | sectionNode (sid : Nat) (title : List Char) (content : PMForest)

/-- A list of ProseMirror nodes (the `content` array). -/
inductive PMForest where
  | nil
  | cons (n : PMNode) (l : PMForest)
end

/-- Build a forest from a list of nodes. -/
def PMForest.ofList : List PMNode → PMForest
  | [] => .nil
  | n :: l => .cons n (PMForest.ofList l)

/-- The `node.attrs?.id` access used by `updateDraftSection`'s `findIndex`. -/
def attrsId : PMNode → Option Nat
  | .sectionNode sid _ _ => some sid
  | .heading _ hid _ => hid
  | _ => none

/-- The `exec` loop of `parseInlineFormatting` (draftService.js) — the same
regex and loop as `parseFormattedTextLoop`, but emitting ProseMirror text
nodes with mark lists. -/
def parseInlineFormattingLoop : Nat → List Char → List PMNode
  | 0, t => if t.isEmpty then [] else [.text t []]
  | fuel + 1, t =>
    match findEmph t with
    | some (pre, inner, isBold, rest) =>
      (if pre.isEmpty then [] else [.text pre []]) ++
      (if isBold then [.text inner [.bold]] else [.text inner [.italic]]) ++
      parseInlineFormattingLoop fuel rest
    | none => if t.isEmpty then [] else [.text t []]

/-- `parseInlineFormatting` from draftService.js. -/
def parseInlineFormatting (text : List Char) : List PMNode :=
  let nodes := parseInlineFormattingLoop (text.length + 1) text
  if nodes.isEmpty then [.text text []] else nodes

/-- A single markdown table cell node (`tableHeader` in row 0, `tableCell`
otherwise), wrapping a paragraph with one text node. -/
def tableCellNode (isHeader : Bool) (cell : List Char) : PMNode :=
  if isHeader then
    .tableHeader (.cons (.paragraph (.cons (.text cell []) .nil)) .nil)
  else
    .tableCell (.cons (.paragraph (.cons (.text cell []) .nil)) .nil)

/-- `parseMarkdownTableToNodes` from draftService.js: skip lines containing a
triple dash, split the others on pipes, trim, drop empty cells; row 0 yields
header cells. -/
def parseMarkdownTableToNodes (tableText : List Char) : List PMNode :=
  let lines := (splitChar '\n' (jsTrim tableText)).filter
    (fun l => !(jsTrim l).isEmpty)
  lines.enum.filterMap (fun p =>
    if containsSeq ['-', '-', '-'] p.2 then none
    else
      let cells := ((splitChar '|' p.2).map jsTrim).filter (fun c => !c.isEmpty)
      some (.tableRow (PMForest.ofList (cells.map (tableCellNode (p.1 == 0))))))

/-- Line starts with a dash or star followed by whitespace (`^[-*]\s`). -/
def startsBullet (l : List Char) : Bool :=
  match l with
  | c :: d :: _ => (c = '-' || c = '*') && isJsWs d
  | _ => false

/-- Line starts with digits, a dot and whitespace (`^\d+\.\s`). -/
def startsOrdered (l : List Char) : Bool :=
  let ds := l.takeWhile isDigitC
  !ds.isEmpty &&
    (match l.drop ds.length with
     | c :: d :: _ => c = '.' && isJsWs d
     | _ => false)

/-- The bullet pattern matches right after some newline of the chunk.  The
suffix keeps its own newlines, so a bare `-` line matches: its terminating
newline serves as the `\s`. -/
def bulletAfterNewline : List Char → Bool
  | [] => false
  | c :: rest => (c = '\n' && startsBullet rest) || bulletAfterNewline rest

/-- The multiline test `/^[-*]\s/m`: with the `m` flag the anchor matches at
the chunk start and after every newline. -/
def startsBulletM (para : List Char) : Bool :=
  startsBullet para || bulletAfterNewline para

/-- The ordered pattern matches right after some newline of the chunk. -/
def orderedAfterNewline : List Char → Bool
  | [] => false
  | c :: rest => (c = '\n' && startsOrdered rest) || orderedAfterNewline rest

/-- The multiline test `/^\d+\.\s/m`. -/
def startsOrderedM (para : List Char) : Bool :=
  startsOrdered para || orderedAfterNewline para

/-- The single-character list-marker strip `^[-*\d.]\s*` used on list items:
one marker character, then any whitespace. -/
def stripListMarker (l : List Char) : List Char :=
  match l with
  | c :: rest =>
    if c = '-' || c = '*' || isDigitC c || c = '.' then rest.dropWhile isJsWs
    else l
  | [] => []

/-- `convertContentToProseMirror` from draftService.js: split on blank lines,
classify each chunk as table, list or paragraph (in that order). -/
def convertContentToProseMirror (content : List Char) : List PMNode :=
  if content.isEmpty then [] else
  ((splitNN content).filter (fun p => !(jsTrim p).isEmpty)).map (fun para =>
    if para.contains '|' && (splitChar '\n' para).length > 1 then
      .table (PMForest.ofList (parseMarkdownTableToNodes para))
    else if startsBulletM para || startsOrderedM para then
      let listItems := (splitChar '\n' para).filter (fun l => !(jsTrim l).isEmpty)
      let isOrdered := startsOrdered (listItems.headD [])
      let items := listItems.map (fun item =>
        PMNode.listItem (.cons
          (.paragraph (.cons (.text (jsTrim (stripListMarker item)) []) .nil))
          .nil))
      if isOrdered then .orderedList (PMForest.ofList items)
      else .bulletList (PMForest.ofList items)
    else
      .paragraph (PMForest.ofList (parseInlineFormatting (jsTrim para))))

/-- One provenance record as stored in `section_sources`.  A key that the JS
object lacks reads as a falsy value, so `manuallyEdited` of a freshly
generated entry is modelled as `false` and absent timestamps as `none`. -/
structure Prov where
  sourceDocuments : List Nat
  sourceSections : List (List Char)
  aiGenerated : Bool
  manuallyEdited : Bool
  warnings : List (List Char)
  generatedAt : Option Nat
  lastEditedAt : Option Nat
deriving DecidableEq, Repr

/-- A source reference input (`{documentId, sections}`). -/
structure SourceRef where
  documentId : Nat
  sections : List (List Char)
deriving DecidableEq, Repr

/-- The `sectionData` argument of `updateDraftSection`. -/
structure SectionData where
  templateSectionId : Nat
  templateSectionTitle : List Char
  content : List Char
  sourceRefs : List SourceRef
  warnings : List (List Char)

/-- A draft row: the ProseMirror document's top-level nodes plus the
`section_sources` provenance map (a JS object modelled as an ordered
key/value list). -/
structure Draft where
  content : List PMNode
  section_sources : List (Nat × Prov)

/-- JS object spread with a computed key: replace the value in place when the
key exists, append otherwise. -/
def setKey (m : List (Nat × Prov)) (k : Nat) (v : Prov) : List (Nat × Prov) :=
  if m.any (fun e => e.1 == k) then
    m.map (fun e => if e.1 = k then (k, v) else e)
  else m ++ [(k, v)]

/-- The section node built by `updateDraftSection`: a heading carrying the
title, followed by the converted content. -/
def sectionNodeFor (sd : SectionData) : PMNode :=
  .sectionNode sd.templateSectionId sd.templateSectionTitle
    (PMForest.ofList
      (.heading 1 (some sd.templateSectionId)
          (.cons (.text sd.templateSectionTitle []) .nil) ::
        convertContentToProseMirror sd.content))

/-- The provenance entry `updateDraftSection` writes for a section: source
documents and sections from the refs, `aiGenerated` set, the generation
result's warnings, a fresh generation timestamp (and no manually-edited or
last-edited keys, which read as falsy). -/
def generationProv (sd : SectionData) (now : Nat) : Prov :=
  { sourceDocuments := sd.sourceRefs.map (fun r => r.documentId)
    sourceSections := sd.sourceRefs.flatMap (fun r => r.sections)
    aiGenerated := true
    manuallyEdited := false
    warnings := sd.warnings
    generatedAt := some now
    lastEditedAt := none }

/-- `updateDraftSection` from draftService.js (the pure draft-row update it
performs; `now` models the generation timestamp). -/
def updateDraftSection (draft : Draft) (sd : SectionData) (now : Nat) : Draft :=
  let node := sectionNodeFor sd
  let current := draft.content
  let newContent :=
    match current.findIdx? (fun n => attrsId n == some sd.templateSectionId) with
    | some i => current.set i node
    | none => current ++ [node]
  { content := newContent
    section_sources :=
      setKey draft.section_sources sd.templateSectionId (generationProv sd now) }

/-- `markSectionsAsEdited` from draftService.js: stamp every provenance entry
as manually edited, with a fresh last-edited timestamp. -/
def markSectionsAsEdited (sectionSources : List (Nat × Prov)) (now : Nat) :
    List (Nat × Prov) :=
  sectionSources.map (fun e =>
    (e.1, { e.2 with manuallyEdited := true, lastEditedAt := some now }))

/-- `saveDraftContent` from draftService.js: replace the whole tree with the
externally supplied content and stamp all provenance entries. -/
def saveDraftContent (draft : Draft) (newContent : List PMNode) (now : Nat) :
    Draft :=
  { content := newContent
    section_sources := markSectionsAsEdited draft.section_sources now }

mutual
/-- The recursive text collector of `extractSectionText` (helpers.js): text
nodes contribute their text, headings are skipped, and a paragraph appends a
blank-line break after its children. -/
def extractTextNode : PMNode → List Char
  | .text t _ => t
  | .heading _ _ _ => []
  | .paragraph c => extractTextForest c ++ ['\n', '\n']
  | .bulletList c => extractTextForest c
  | .orderedList c => extractTextForest c
  | .listItem c => extractTextForest c
  | .table c => extractTextForest c
  | .tableRow c => extractTextForest c
  | .tableHeader c => extractTextForest c
  | .tableCell c => extractTextForest c
  | .sectionNode _ _ c => extractTextForest c

/-- Collect text over a child list. -/
def extractTextForest : PMForest → List Char
  | .nil => []
  | .cons n l => extractTextNode n ++ extractTextForest l
end

/-- `normalizeWhitespace` from helpers.js, step 1: `replace(\s+, ' ')` —
collapse every whitespace run to a single space. -/
def collapseWs : List Char → List Char
  | [] => []
  | c :: rest =>
    if isJsWs c then
      match rest with
      | r0 :: _ => if isJsWs r0 then collapseWs rest else ' ' :: collapseWs rest
      | [] => [' ']
    else c :: collapseWs rest

/-- `normalizeWhitespace` from helpers.js: collapse whitespace runs and trim. -/
def normalizeWhitespace (l : List Char) : List Char :=
  jsTrim (collapseWs l)

/-- Strip a leading fenced code block opener: three backquotes, an optional
word-character run, an optional newline. -/
def stripCodeFenceOpen (t : List Char) : List Char :=
  match t with
  | a :: b :: c :: rest =>
    if a = backquoteC && b = backquoteC && c = backquoteC then
      let rest1 := rest.dropWhile isWordChar
      match rest1 with
      | '\n' :: r => r
      | _ => rest1
    else t
  | _ => t

/-- Strip a trailing fence: an optional newline then three final backquotes. -/
def stripCodeFenceClose (t : List Char) : List Char :=
  match t.reverse with
  | c3 :: c2 :: c1 :: rest =>
    if c3 = backquoteC && c2 = backquoteC && c1 = backquoteC then
      match rest with
      | '\n' :: r => r.reverse
      | _ => rest.reverse
    else t
  | _ => t

/-- The four preamble alternatives of the anchored preamble regex. -/
def preamblePhrases : List (List Char) :=
  ["Here is".toList,
   "Here".toList ++ [apos, 's'],
   "Below is".toList,
   "The following is".toList]

/-- Strip the case-insensitive preamble: an alternative above, any run of
non-colon characters, a colon, then any whitespace. -/
def stripPreamble (t : List Char) : List Char :=
  match preamblePhrases.find? (fun p => ciIsPrefix p t) with
  | none => t
  | some p =>
    let rest := t.drop p.length
    let upTo := rest.takeWhile (fun c => c != ':')
    match rest.drop upTo.length with
    | ':' :: r => r.dropWhile isJsWs
    | _ => t

/-- Strip a leading markdown heading: one or more hash marks, then word or
whitespace characters, ending at the final newline of the matched region (the
regex's greedy backtracking lands the match end on the last newline of the
maximal word-or-whitespace prefix, provided at least one character precedes
it). -/
def stripLeadingHeading (t : List Char) : List Char :=
  match t with
  | c :: _ =>
    if c = '#' then
      let s := t.dropWhile (fun d => d = '#')
      let m := s.takeWhile (fun d => isWordChar d || isJsWs d)
      let revKeep := m.reverse.dropWhile (fun d => d != '\n')
      if 2 ≤ revKeep.length then s.drop revKeep.length else t
    else t
  | [] => t

/-- The trailing-note alternatives. -/
def notePhrases : List (List Char) :=
  ["Note:".toList,
   "Please note:".toList,
   "I hope".toList,
   "Let me know".toList,
   "Is there anything".toList]

/-- Strip from the first newline run that is immediately followed by one of
the note phrases (case-insensitively) to the end of the text. -/
def stripTrailingNote : List Char → List Char
  | [] => []
  | c :: rest =>
    if c = '\n' &&
        notePhrases.any (fun p => ciIsPrefix p (rest.dropWhile (fun d => d = '\n'))) then
      []
    else c :: stripTrailingNote rest

/-- The artifact-strip stage of `cleanGeneratedText` (steps before the
whitespace normalization). -/
def stripArtifacts (t : List Char) : List Char :=
  stripTrailingNote (stripLeadingHeading (stripPreamble
    (stripCodeFenceClose (stripCodeFenceOpen t))))

/-- The paragraph-normalization stage of `cleanGeneratedText`: split on blank
lines, normalize each paragraph, drop empties, re-join, trim. -/
def normalizeParas (t : List Char) : List Char :=
  jsTrim (List.intercalate ['\n', '\n']
    (((splitNN t).map normalizeWhitespace).filter (fun p => !p.isEmpty)))

/-- `cleanGeneratedText` from responseParser.js. -/
def cleanGeneratedText (text : List Char) : List Char :=
  if text.isEmpty then [] else normalizeParas (stripArtifacts text)

/-- Leftmost case-insensitive match among the alternatives of one marker
regex; ties cannot arise because no two alternatives match at one position.
Returns the matched slice of the text. -/
def groupMatch (t : List Char) (variants : List (List Char)) : Option (List Char) :=
  let hits := variants.filterMap (fun v => (ciFindIndex v t).map (fun i => (i, v.length)))
  match hits.foldl (fun acc h =>
      match acc with
      | none => some h
      | some a => if h.1 < a.1 then some h else some a) none with
  | none => none
  | some (i, len) => some ((t.drop i).take len)

/-- `FAILURE_MARKERS` from responseParser.js, with each regex alternation
expanded into its literal alternatives. -/
def failureMarkerGroups : List (List (List Char)) :=
  [["insufficient source content".toList],
   ["no relevant content found".toList, "no relevant information found".toList],
   ["unable to generate".toList, "unable to create".toList, "unable to write".toList],
   ["content not available".toList]]

/-- `detectFailure` from responseParser.js: the first marker regex that
matches wins; the reason is its leftmost matched slice. -/
def detectFailure (t : List Char) : Option (List Char) :=
  (failureMarkerGroups.filterMap (fun g => groupMatch t g)).head?

/-- `HALLUCINATION_MARKERS` from responseParser.js, alternations expanded. -/
def halluMarkerGroups : List (List (List Char)) :=
  [["I don".toList ++ [apos] ++ "t have access to".toList,
    "I don".toList ++ [apos] ++ "t have information about".toList],
   ["I cannot find".toList, "I cannot locate".toList, "I cannot access".toList],
   ["there is no information".toList, "there is no data".toList,
    "there is no content".toList],
   ["I would need more information".toList, "I would need more context".toList,
    "I would need more data".toList],
   ["I".toList ++ [apos] ++ "m not sure".toList,
    "I".toList ++ [apos] ++ "m not certain".toList,
    "I".toList ++ [apos] ++ "m not able to confirm".toList],
   ["this may not be accurate".toList, "this might not be accurate".toList,
    "this could not be accurate".toList],
   ["I cannot verify".toList],
   ["hypothetically".toList],
   ["I assume".toList],
   ["let me imagine".toList, "let me suppose".toList, "let me assume".toList]]

/-- `detectHallucination` from responseParser.js: collect the matched slice of
every marker regex that fires, in marker order. -/
def detectHallucination (t : List Char) : List (List Char) :=
  halluMarkerGroups.filterMap (fun g => groupMatch t g)

/-- The metadata record of a parsed section result. -/
structure SectionMeta where
  wordCount : Nat
  paragraphCount : Nat
  hasHallucinationMarkers : Bool
deriving DecidableEq, Repr

/-- The result of `parseSectionContent`.  Fields the JS object omits on a
given path are modelled by their falsy defaults (`none`, `false`, `[]`). -/
structure ParseResult where
  success : Bool
  content : List Char
  sectionTitle : List Char
  error : Option (List Char)
  needsManualInput : Bool
  warnings : List (List Char)
  metadata : Option SectionMeta
deriving DecidableEq, Repr

/-- `parseSectionContent` from responseParser.js. -/
def parseSectionContent (response : List Char) (sectionTitle : List Char) :
    ParseResult :=
  let cleaned := cleanGeneratedText response
  match detectFailure cleaned with
  | some reason =>
    { success := false
      content := []
      sectionTitle := sectionTitle
      error := some ("Could not generate content: ".toList ++ reason)
      needsManualInput := true
      warnings := []
      metadata := none }
  | none =>
    let markers := detectHallucination cleaned
    let isTooShort := cleaned.length < 50
    { success := !isTooShort
      content := cleaned
      sectionTitle := sectionTitle
      error := none
      needsManualInput := false
      warnings :=
        (if !markers.isEmpty then
          ["Potential uncertainty detected: ".toList ++
            List.intercalate ", ".toList markers]
         else []) ++
        (if isTooShort then
          ["Generated content is very short. May need additional source material.".toList]
         else [])
      metadata := some
        { wordCount := (jsSplitWs cleaned).length
          paragraphCount := (splitNN2 cleaned).length
          hasHallucinationMarkers := !markers.isEmpty } }

/-! ## Renderer: DOCX export (docxGenerator.js) -/

/-- A markdown table parsed by `parseMarkdownTable`. -/
structure MdTable where
  headers : List (List Char)
  rows : List (List (List Char))
deriving DecidableEq, Repr

/-- The `parseRow` helper of `parseMarkdownTable`: split on pipes, trim each
cell, keep cells that are non-empty and not made up solely of dashes. -/
def parseRowMd (line : List Char) : List (List Char) :=
  ((splitChar '|' line).map jsTrim).filter
    (fun cell => !cell.isEmpty && !(cell.all (fun c => c = '-')))

/-- `parseMarkdownTable` from docxGenerator.js. -/
def parseMarkdownTable (tableText : List Char) : Option MdTable :=
  let lines := (splitChar '\n' (jsTrim tableText)).filter
    (fun l => !(jsTrim l).isEmpty)
  if lines.length < 2 then none
  else
    let headers := parseRowMd (lines.headD [])
    let dataStartIndex := if ((lines.get? 1).getD []).contains '-' then 2 else 1
    some { headers := headers, rows := (lines.drop dataStartIndex).map parseRowMd }

/-- Paragraph alignment of a docx block. -/
inductive DocxAlign where
  | justified
  | left
  | center
deriving DecidableEq, Repr

/-- The docx block elements `generateDocx` pushes onto `children`. -/
inductive DocxElem where
  | titleP (text : List Char)
  | heading (text : List Char) (level : Nat)
  | para (runs : List DocxRun) (align : DocxAlign)
  | bulletItem (runs : List DocxRun)
  | tableEl (t : MdTable)
  | pageBreakEl
  | refPara (text : List Char)
deriving DecidableEq, Repr

/-- `createParagraph` from docxGenerator.js: a paragraph whose children are
the parsed emphasis runs. -/
def createParagraph (text : List Char) (align : DocxAlign) : DocxElem :=
  .para (parseFormattedText text) align

/-- `createHeading` from docxGenerator.js. -/
def createHeading (text : List Char) (level : Nat) : DocxElem :=
  .heading text level

/-- `convertContentToDocx` from docxGenerator.js: split into blank-line
paragraphs, emit a table, bullet items, or a justified paragraph per chunk. -/
def convertContentToDocx (content : List Char) : List DocxElem :=
  ((splitNN content).filter (fun p => !(jsTrim p).isEmpty)).flatMap (fun para =>
    let trimmed := jsTrim para
    let fallThrough : List DocxElem :=
      if startsBullet trimmed || startsOrdered trimmed then
        (splitChar '\n' trimmed).filterMap (fun item =>
          let text := jsTrim (stripListMarker item)
          if text.isEmpty then none
          else some (.bulletItem (parseFormattedText text)))
      else [createParagraph trimmed .justified]
    if trimmed.contains '|' && (splitChar '\n' trimmed).length > 1 then
      match parseMarkdownTable trimmed with
      | some td => [.tableEl td]
      | none => fallThrough
    else fallThrough)

/-- One reference record of a draft (`formatted`/`rawText`, with JS falsy
empty strings). -/
structure RefRec where
  formatted : List Char
  rawText : List Char
deriving DecidableEq, Repr

/-- A draft section as consumed by the export (`convertDraftForExport`
output). -/
structure ExpSection where
  templateSectionId : Option Nat
  templateSectionTitle : List Char
  content : List Char
deriving DecidableEq, Repr

/-- The draft object consumed by `generateDocx`. -/
structure ExpDraft where
  sections : List ExpSection
  references : List RefRec
deriving DecidableEq, Repr

/-- The options object of `generateDocx` (defaults: a standard title,
references included, no table of contents). -/
structure ExportOptions where
  title : List Char
  includeReferences : Bool
  includeTableOfContents : Bool
deriving DecidableEq, Repr

/-- The placeholder paragraph text for sections without content. -/
def placeholderText : List Char := "[Content not yet generated]".toList

/-- The per-template-section block of `generateDocx`'s main loop: the section
heading, then either the converted draft content or the placeholder
paragraph. -/
def sectionBlocks (draft : ExpDraft) (t : SectionDesc) : List DocxElem :=
  createHeading t.title t.level ::
    (match draft.sections.find? (fun s =>
        s.templateSectionId == some t.sid || s.templateSectionTitle == t.title) with
     | some s =>
       if !s.content.isEmpty then convertContentToDocx s.content
       else [createParagraph placeholderText .left]
     | none => [createParagraph placeholderText .left])

/-- The references block of `generateDocx`: page break, a `References`
heading, and one numbered hanging-indent paragraph per reference. -/
def referenceChildren (refs : List RefRec) : List DocxElem :=
  .pageBreakEl :: createHeading "References".toList 1 ::
    refs.enum.map (fun p =>
      let refText :=
        if !p.2.formatted.isEmpty then p.2.formatted
        else if !p.2.rawText.isEmpty then p.2.rawText
        else "Reference ".toList ++ (Nat.repr (p.1 + 1)).toList
      .refPara ("[".toList ++ (Nat.repr (p.1 + 1)).toList ++ "] ".toList ++ refText))

/-- The `children` list assembled by `generateDocx` (docxGenerator.js):
document title, the per-section blocks in template order, then the references
block when references are requested and present.  `tstructure` is the
template's `structure` array. -/
def generateDocxChildren (draft : ExpDraft) (tstructure : List SectionDesc)
    (opts : ExportOptions) : List DocxElem :=
  .titleP opts.title ::
    ((tstructure.flatMap (sectionBlocks draft)) ++
      (if opts.includeReferences && !draft.references.isEmpty
       then referenceChildren draft.references else []))

/-- Is the element a heading produced by `createHeading`? -/
def isHeadingElem : DocxElem → Bool
  | .heading _ _ => true
  | _ => false

/-- Is the element the placeholder paragraph for an unpopulated section? -/
def isPlaceholderElem (e : DocxElem) : Bool :=
  e == createParagraph placeholderText .left

/-! ## Structure Extractor: pattern fallback of `parseDocxTemplate`
(docxParser.js) -/

/-- Characters allowed after the first letter of a placeholder name. -/
def isPlaceholderChar (c : Char) : Bool := isUpper c || isDigitC c || c = '_'

/-- The global placeholder-regex scan: double left braces, an upper-snake
name, double right braces; returns the captured names in order.  `fuel`
bounds only the recursion; `t.length + 1` always suffices. -/
def extractPlaceholdersAux : Nat → List Char → List (List Char)
  | 0, _ => []
  | _ + 1, [] => []
  | fuel + 1, c :: rest =>
    if c = leftBrace then
      match rest with
      | c2 :: rest2 =>
        if c2 = leftBrace then
          match rest2 with
          | c3 :: rest3 =>
            if isUpper c3 then
              let nameTail := rest3.takeWhile isPlaceholderChar
              let after := rest3.drop nameTail.length
              match after with
              | d1 :: d2 :: rest4 =>
                if d1 = rightBrace && d2 = rightBrace then
                  (c3 :: nameTail) :: extractPlaceholdersAux fuel rest4
                else extractPlaceholdersAux fuel rest
              | _ => extractPlaceholdersAux fuel rest
            else extractPlaceholdersAux fuel rest
          | [] => []
        else extractPlaceholdersAux fuel rest
      | [] => []
    else extractPlaceholdersAux fuel rest

/-- `extractPlaceholders` from docxParser.js (the captured names). -/
def extractPlaceholders (t : List Char) : List (List Char) :=
  extractPlaceholdersAux (t.length + 1) t

/-- Whitespace then a capital: the `\s+[A-Z]` tail of the numbered-heading
regex. -/
def wsCap (l : List Char) : Bool :=
  let ws := l.takeWhile isJsWs
  !ws.isEmpty &&
    (match l.drop ws.length with
     | c :: _ => isUpper c
     | [] => false)

/-- The `(\.\d+)*\.?\s+[A-Z]` tail of the numbered-heading regex (greedy,
deterministic because digits, the dot and whitespace are disjoint classes).
`fuel` bounds only the recursion. -/
def numberedTailF : Nat → List Char → Bool
  | 0, _ => false
  | fuel + 1, l =>
    match l with
    | '.' :: rest =>
      let ds := rest.takeWhile isDigitC
      if ds.isEmpty then wsCap rest
      else numberedTailF fuel (rest.drop ds.length)
    | _ => wsCap l

/-- The numbered-heading test `^\d+(\.\d+)*\.?\s+[A-Z]` of the pattern
fallback. -/
def matchNumberedHeading (l : List Char) : Bool :=
  let ds := l.takeWhile isDigitC
  !ds.isEmpty && numberedTailF (l.length + 1) (l.drop ds.length)

/-- A descriptor produced by the pattern fallback (id and order omitted:
ids come from a random generator and order is the list position). -/
structure PatDesc where
  level : Nat
  title : List Char
  placeholder : Option (List Char)
deriving DecidableEq, Repr

/-- The plain-text pattern-fallback loop of `parseDocxTemplate`
(docxParser.js): short lines with a placeholder become level-1 descriptors;
short lines matching the numbered-heading pattern become descriptors whose
level is `min(dotCount + 1, 4)`, where `dotCount` counts the dots of the
whole trimmed line. -/
def patternFallback (plainText : List Char) : List PatDesc :=
  ((splitChar '\n' plainText).filter (fun l => !(jsTrim l).isEmpty)).filterMap
    (fun line =>
      let trimmed := jsTrim line
      if trimmed.length > 100 then none
      else
        match (extractPlaceholders trimmed).head? with
        | some name => some { level := 1, title := trimmed, placeholder := some name }
        | none =>
          if matchNumberedHeading trimmed then
            let dotCount := trimmed.countP (fun c => c = '.')
            some { level := min (dotCount + 1) 4, title := trimmed, placeholder := none }
          else none)

/-- Count the dots of the `(\.\d+)*\.?` part of the outline prefix. -/
def prefixDotCountAux : Nat → List Char → Nat
  | 0, _ => 0
  | fuel + 1, l =>
    match l with
    | '.' :: rest =>
      let ds := rest.takeWhile isDigitC
      if ds.isEmpty then 1
      else 1 + prefixDotCountAux fuel (rest.drop ds.length)
    | _ => 0

/-- The dot count of only the leading numeric outline prefix of a line — the
reading asserted by the specification (digits, then repeated dot-digit
groups, then an optional final dot). -/
def prefixDotCount (l : List Char) : Nat :=
  let rest := l.dropWhile isDigitC
  prefixDotCountAux (rest.length + 1) rest

/-! ## Auxiliary spec-side definitions and concrete instances -/

/-- The ProseMirror text node corresponding to a docx run: a bold flag maps to
a bold mark, an italics flag to an italic mark, a plain run to no marks. -/
def docxRunToPM (r : DocxRun) : PMNode :=
  .text r.text ((if r.bold then [PMMark.bold] else []) ++
    (if r.italics then [PMMark.italic] else []))

/-- A sample provenance record for witnesses. -/
def provEx : Prov :=
  { sourceDocuments := [7]
    sourceSections := [['s']]
    aiGenerated := true
    manuallyEdited := false
    warnings := [['w']]
    generatedAt := some 1
    lastEditedAt := none }

/-- A sample draft row with one provenance entry. -/
def draftEx : Draft := { content := [], section_sources := [(5, provEx)] }

/-- A five-descriptor template structure (for the C2 example). -/
def tstructEx : List SectionDesc :=
  [⟨1, 1, "One".toList⟩, ⟨2, 2, "Two".toList⟩, ⟨3, 2, "Three".toList⟩,
   ⟨4, 1, "Four".toList⟩, ⟨5, 2, "Five".toList⟩]

/-- A draft populated for three of the five template sections. -/
def draftEx2 : ExpDraft :=
  { sections :=
      [⟨some 1, "One".toList, "Alpha beta gamma.".toList⟩,
       ⟨some 3, "Three".toList, "Delta epsilon.".toList⟩,
       ⟨some 4, "Four".toList, "Zeta eta theta.".toList⟩]
    references := [] }

/-- Default export options (`generateDocx` defaults). -/
def optsEx : ExportOptions :=
  { title := "Research Report".toList
    includeReferences := true
    includeTableOfContents := false }

/-- Two section-data values with the same id and different content, for the
C3 witness. -/
def sdEx1 : SectionData :=
  { templateSectionId := 5
    templateSectionTitle := "Intro".toList
    content := "First version.".toList
    sourceRefs := [⟨7, [['a']]⟩]
    warnings := [] }

/-- The second call's section data. -/
def sdEx2 : SectionData :=
  { templateSectionId := 5
    templateSectionTitle := "Intro".toList
    content := "Second version entirely.".toList
    sourceRefs := [⟨8, [['b']]⟩]
    warnings := [['u']] }

/-! ## Theorems -/

theorem head?_dropWhile {α : Type} (p : α → Bool) (l : List α) :
    (l.dropWhile p).head? = l.find? (fun x => ! p x) := by
  induction l with
  | nil => rfl
  | cons a l ih =>
    by_cases h : p a = true
    · simp [List.dropWhile_cons, h, List.find?_cons, ih]
    · simp [List.dropWhile_cons, h, List.find?_cons]

theorem find?_dropWhile_of_imp {α : Type} (p q : α → Bool) (l : List α)
    (h : ∀ x, p x = true → q x = false) :
    (l.dropWhile p).find? q = l.find? q := by
  induction l with
  | nil => rfl
  | cons a l ih =>
    by_cases hp : p a = true
    · simp [List.dropWhile_cons, hp, List.find?_cons, h a hp, ih]
    · simp [List.dropWhile_cons, hp]

theorem stackOf_append_singleton (pre : List SectionDesc) (s : SectionDesc) :
    stackOf (pre ++ [s]) = (s.level, s.sid) :: popStack (stackOf pre) s.level := by
  simp [stackOf, List.foldl_append]

/-- The stack search agrees with searching the processed prefix from the right
for a strictly lower level. -/
theorem stackOf_find (pre : List SectionDesc) (lvl : Nat) :
    (stackOf pre).find? (fun e => decide (e.1 < lvl)) =
      (pre.reverse.find? (fun s => decide (s.level < lvl))).map
        (fun s => (s.level, s.sid)) := by
  induction pre using List.reverseRecOn with
  | nil => simp [stackOf]
  | append_singleton pre s ih =>
    rw [stackOf_append_singleton]
    by_cases h : s.level < lvl
    · simp [List.find?_cons, h]
    · have hdrop : (popStack (stackOf pre) s.level).find?
          (fun e => decide (e.1 < lvl)) =
          (stackOf pre).find? (fun e => decide (e.1 < lvl)) := by
        apply find?_dropWhile_of_imp
        intro x hx
        simp only [decide_eq_true_eq] at hx
        simp only [decide_eq_false_iff_not]
        omega
      simp [List.find?_cons, h, hdrop, ih]

theorem buildHierarchyAux_map_stripH (rest : List SectionDesc) :
    ∀ stack, (buildHierarchyAux rest stack).map stripH = rest := by
  induction rest with
  | nil => intro stack; rfl
  | cons a rest ih => intro stack; simp [buildHierarchyAux, stripH, ih]

theorem buildHierarchyAux_parent (rest : List SectionDesc) :
    ∀ (pre : List SectionDesc) (i : Nat) (s : SectionDesc),
      rest.get? i = some s →
      ∃ h : HSection,
        (buildHierarchyAux rest (stackOf pre)).get? i = some h ∧
        stripH h = s ∧
        h.parentId =
          ((pre ++ rest.take i).reverse.find?
              (fun x => decide (x.level < s.level))).map (fun x => x.sid) := by
  induction rest with
  | nil => intro pre i s hs; simp at hs
  | cons a rest ih =>
    intro pre i s hs
    cases i with
    | zero =>
      simp only [List.get?] at hs
      injection hs with hs
      subst hs
      refine ⟨_, rfl, rfl, ?_⟩
      show ((popStack (stackOf pre) a.level).head?.map (fun e => e.2)) = _
      rw [popStack, head?_dropWhile]
      have hfun : (fun e : Nat × Nat => ! decide (a.level ≤ e.1)) =
          (fun e : Nat × Nat => decide (e.1 < a.level)) := by
        funext e
        simp [← decide_not, Nat.not_le]
      rw [hfun, stackOf_find, Option.map_map]
      simp only [List.take_zero, List.append_nil]
      rfl
    | succ i =>
      simp only [List.get?] at hs
      have step : buildHierarchyAux (a :: rest) (stackOf pre) =
          ⟨a.sid, a.level, a.title,
            ((popStack (stackOf pre) a.level).head?.map (fun e => e.2))⟩ ::
          buildHierarchyAux rest (stackOf (pre ++ [a])) := by
        rw [stackOf_append_singleton]
        rfl
      rw [step]
      simp only [List.get?]
      obtain ⟨h, h1, h2, h3⟩ := ih (pre ++ [a]) i s hs
      refine ⟨h, h1, h2, ?_⟩
      rw [h3]
      simp [List.append_assoc]

theorem parentOf_level_lt (flat : List SectionDesc)
    (hnd : (flat.map (fun s => s.sid)).Nodup) :
    ∀ p c, parentOf (buildHierarchy flat) p c → p.level < c.level := by
  rintro p c ⟨hp, hc, hpc⟩
  obtain ⟨i, hi⟩ := List.mem_iff_get?.mp hc
  have hmap : (buildHierarchy flat).map stripH = flat :=
    buildHierarchyAux_map_stripH flat []
  have hflat : flat.get? i = some (stripH c) := by
    rw [← hmap, List.get?_map, hi]
    rfl
  obtain ⟨h, h1, h2, h3⟩ := buildHierarchyAux_parent flat [] i (stripH c) hflat
  have h1' : (buildHierarchy flat).get? i = some h := h1
  have hhc : h = c := by
    have := h1'.symm.trans hi
    exact Option.some.inj this
  subst hhc
  rw [hpc] at h3
  simp only [List.nil_append] at h3
  obtain ⟨x, hx1, hx2⟩ := (Option.map_eq_some'.mp h3.symm)
  have hxlt : x.level < (stripH h).level := by
    have := List.find?_some hx1
    simpa using this
  have hxmem : x ∈ flat := by
    have : x ∈ (flat.take i).reverse := List.mem_of_find?_eq_some hx1
    exact List.take_subset i flat (List.mem_reverse.mp this)
  have hpmem : stripH p ∈ flat := by
    rw [← hmap]
    exact List.mem_map_of_mem stripH hp
  have hxp : x = stripH p := by
    apply List.inj_on_of_nodup_map hnd hxmem hpmem
    simpa [stripH] using hx2
  have : p.level = x.level := by rw [hxp]; rfl
  simpa [stripH, this] using hxlt

/-- C1: the hierarchy builder returns the descriptors in the same order with a
`parentId` added to each — the id of the nearest preceding descriptor of
strictly lower level, or `none` when no such descriptor exists.  When ids are
distinct, every ancestor chain has strictly decreasing levels, no id is its
own ancestor, and the parent relation is well-founded (chains terminate at a
root). -/
theorem buildHierarchy_spec (flat : List SectionDesc)
    (hnd : (flat.map (fun s => s.sid)).Nodup) :
    ((buildHierarchy flat).map stripH = flat) ∧
    (∀ i s, flat.get? i = some s →
      ∃ h, (buildHierarchy flat).get? i = some h ∧ stripH h = s ∧
        h.parentId = ((flat.take i).reverse.find?
            (fun x => decide (x.level < s.level))).map (fun x => x.sid)) ∧
    (∀ p c, Relation.TransGen (parentOf (buildHierarchy flat)) p c →
      p.level < c.level) ∧
    (∀ x, ¬ Relation.TransGen (parentOf (buildHierarchy flat)) x x) ∧
    WellFounded (parentOf (buildHierarchy flat)) := by
  have hstep := parentOf_level_lt flat hnd
  have htrans : ∀ p c, Relation.TransGen (parentOf (buildHierarchy flat)) p c →
      p.level < c.level := by
    intro p c h
    induction h with
    | single h => exact hstep _ _ h
    | tail h1 h2 ih => exact lt_trans ih (hstep _ _ h2)
  refine ⟨buildHierarchyAux_map_stripH flat [], ?_, htrans, ?_, ?_⟩
  · intro i s hs
    obtain ⟨h, h1, h2, h3⟩ := buildHierarchyAux_parent flat [] i s hs
    exact ⟨h, h1, h2, by simpa using h3⟩
  · intro x hx
    exact absurd (htrans x x hx) (lt_irrefl _)
  · exact Subrelation.wf (fun {p c} h => hstep p c h)
      (InvImage.wf (fun h : HSection => h.level) Nat.lt_wfRel.wf)

theorem buildHierarchy_spec_witness :
    ((flatEx.map (fun s => s.sid)).Nodup) ∧
      (buildHierarchy flatEx).map stripH = flatEx :=
  ⟨by decide, (buildHierarchy_spec flatEx (by decide)).1⟩

theorem parseInlineFormattingLoop_eq (fuel : Nat) :
    ∀ t, parseInlineFormattingLoop fuel t =
      (parseFormattedTextLoop fuel t).map docxRunToPM := by
  induction fuel with
  | zero =>
    intro t
    by_cases h : t.isEmpty <;>
      simp [parseInlineFormattingLoop, parseFormattedTextLoop, h, docxRunToPM]
  | succ fuel ih =>
    intro t
    simp only [parseInlineFormattingLoop, parseFormattedTextLoop]
    cases hfe : findEmph t with
    | none =>
      by_cases h : t.isEmpty <;> simp [h, docxRunToPM]
    | some q =>
      obtain ⟨pre, inner, isBold, rest⟩ := q
      by_cases hpre : pre.isEmpty <;> cases isBold <;>
        simp [hpre, ih, docxRunToPM]

/-- C10: the DOCX writer's inline-emphasis parser and the draft-ingestion
inline parser produce the same segmentation — the same number of runs, and at
each position the same text with the same bold/italic marking (a docx bold or
italics flag corresponding exactly to a ProseMirror bold or italic mark). -/
theorem parseInline_equiv_parseFormatted (text : List Char) :
    parseInlineFormatting text = (parseFormattedText text).map docxRunToPM ∧
    (parseInlineFormatting text).length = (parseFormattedText text).length := by
  have hmain : parseInlineFormatting text =
      (parseFormattedText text).map docxRunToPM := by
    simp only [parseInlineFormatting, parseFormattedText]
    rw [parseInlineFormattingLoop_eq]
    cases hl : parseFormattedTextLoop (text.length + 1) text with
    | nil => simp [docxRunToPM]
    | cons a l => simp
  exact ⟨hmain, by rw [hmain, List.length_map]⟩

/-- C7: when the cleaned text matches a failure-indicator phrase,
`parseSectionContent` short-circuits: `success = false`, empty content, an
error naming the matched phrase, `needsManualInput = true`, and no quality
warnings or metadata from the later hallucination/length checks. -/
theorem parseSectionContent_failure_spec (response sectionTitle reason : List Char)
    (h : detectFailure (cleanGeneratedText response) = some reason) :
    parseSectionContent response sectionTitle =
      { success := false
        content := []
        sectionTitle := sectionTitle
        error := some ("Could not generate content: ".toList ++ reason)
        needsManualInput := true
        warnings := []
        metadata := none } := by
  simp [parseSectionContent, h]

theorem parseSectionContent_failure_spec_witness :
    detectFailure (cleanGeneratedText "unable to generate anything useful".toList) =
      some "unable to generate".toList ∧
    parseSectionContent "unable to generate anything useful".toList ['T'] =
      { success := false
        content := []
        sectionTitle := ['T']
        error := some ("Could not generate content: ".toList ++
          "unable to generate".toList)
        needsManualInput := true
        warnings := []
        metadata := none } :=
  ⟨by decide, parseSectionContent_failure_spec _ _ _ (by decide)⟩

theorem find?_map_of_key_preserved (l : List (Nat × Prov))
    (f : (Nat × Prov) → (Nat × Prov)) (k : Nat) (hf : ∀ e, (f e).1 = e.1) :
    (l.map f).find? (fun e => e.1 == k) = (l.find? (fun e => e.1 == k)).map f := by
  induction l with
  | nil => rfl
  | cons a l ih =>
    by_cases h : a.1 = k
    · simp [List.find?_cons, hf a, h]
    · simp [List.find?_cons, hf a, h, ih]

/-- C8: `saveDraftContent` stores the supplied content as the new tree and
sets `manuallyEdited = true` with a fresh last-edited timestamp on every
provenance entry — regardless of whether that section's nodes changed — while
leaving every other provenance field (aiGenerated, source documents, source
sections, warnings, generation timestamp) unchanged. -/
theorem saveDraftContent_spec (draft : Draft) (newContent : List PMNode) (now : Nat) :
    (saveDraftContent draft newContent now).content = newContent ∧
    (∀ k, (saveDraftContent draft newContent now).section_sources.find?
        (fun e => e.1 == k) =
      (draft.section_sources.find? (fun e => e.1 == k)).map
        (fun e => (e.1, { e.2 with manuallyEdited := true, lastEditedAt := some now }))) ∧
    (∀ e, e ∈ (saveDraftContent draft newContent now).section_sources →
      ∃ e0, e0 ∈ draft.section_sources ∧ e.1 = e0.1 ∧
        e.2.aiGenerated = e0.2.aiGenerated ∧
        e.2.sourceDocuments = e0.2.sourceDocuments ∧
        e.2.sourceSections = e0.2.sourceSections ∧
        e.2.warnings = e0.2.warnings ∧
        e.2.generatedAt = e0.2.generatedAt ∧
        e.2.manuallyEdited = true ∧ e.2.lastEditedAt = some now) := by
  refine ⟨rfl, ?_, ?_⟩
  · intro k
    exact find?_map_of_key_preserved draft.section_sources _ k (fun e => rfl)
  · intro e he
    simp only [saveDraftContent, markSectionsAsEdited, List.mem_map] at he
    obtain ⟨e0, he0, rfl⟩ := he
    exact ⟨e0, he0, rfl, rfl, rfl, rfl, rfl, rfl, rfl, rfl⟩

theorem saveDraftContent_spec_witness :
    ((5, { provEx with manuallyEdited := true, lastEditedAt := some 9 }) ∈
        (saveDraftContent draftEx [] 9).section_sources) ∧
    (∃ e0, e0 ∈ draftEx.section_sources ∧
        (5 : Nat) = e0.1 ∧
        ({ provEx with manuallyEdited := true, lastEditedAt := some 9 }).aiGenerated
          = e0.2.aiGenerated ∧
        ({ provEx with manuallyEdited := true, lastEditedAt := some 9 }).sourceDocuments
          = e0.2.sourceDocuments ∧
        ({ provEx with manuallyEdited := true, lastEditedAt := some 9 }).sourceSections
          = e0.2.sourceSections ∧
        ({ provEx with manuallyEdited := true, lastEditedAt := some 9 }).warnings
          = e0.2.warnings ∧
        ({ provEx with manuallyEdited := true, lastEditedAt := some 9 }).generatedAt
          = e0.2.generatedAt ∧
        ({ provEx with manuallyEdited := true, lastEditedAt := some 9 }).manuallyEdited
          = true ∧
        ({ provEx with manuallyEdited := true, lastEditedAt := some 9 }).lastEditedAt
          = some 9) :=
  ⟨by decide, (saveDraftContent_spec draftEx [] 9).2.2
    (5, { provEx with manuallyEdited := true, lastEditedAt := some 9 }) (by decide)⟩

/-- C9 counterexample: interior empty cells are NOT kept (the filter drops
every empty cell), and the separator test is just "the second line contains a
dash", so a second line of colons is treated as a body row. -/
theorem parseMarkdownTable_counterexample :
    (parseMarkdownTable "| A |  | C |\n| --- | --- | --- |\n| 1 |  | 3 |".toList ≠
      some { headers := [['A'], [], ['C']], rows := [[['1'], [], ['3']]] }) ∧
    parseMarkdownTable "| A |  | C |\n| --- | --- | --- |\n| 1 |  | 3 |".toList =
      some { headers := [['A'], ['C']], rows := [[['1'], ['3']]] } ∧
    parseMarkdownTable "| A |\n| ::: |\n| 1 |".toList =
      some { headers := [['A']], rows := [[[':', ':', ':']], [['1']]] } :=
  ⟨by decide, by decide, by decide⟩

/-- C9 (amended): the parser keeps the non-blank lines of the trimmed text and
needs at least two of them; the first kept line gives the headers; the second
line is skipped as a separator exactly when it contains a dash anywhere; each
parsed row splits its line on pipes, trims the cells, and discards every cell
that is empty or consists solely of dashes — interior empty cells included.
The example table parses to headers A, B and one body row 1, 2. -/
theorem parseMarkdownTable_spec :
    (∀ tableText,
      ((((splitChar '\n' (jsTrim tableText)).filter
          (fun l => !(jsTrim l).isEmpty)).length < 2) →
        parseMarkdownTable tableText = none) ∧
      (2 ≤ ((splitChar '\n' (jsTrim tableText)).filter
          (fun l => !(jsTrim l).isEmpty)).length →
        parseMarkdownTable tableText =
          (some { headers := parseRowMd (((splitChar '\n' (jsTrim tableText)).filter
                    (fun l => !(jsTrim l).isEmpty)).headD [])
                  rows := (((splitChar '\n' (jsTrim tableText)).filter
                    (fun l => !(jsTrim l).isEmpty)).drop
                      (if ((((splitChar '\n' (jsTrim tableText)).filter
                          (fun l => !(jsTrim l).isEmpty)).get? 1).getD []).contains '-'
                       then 2 else 1)).map parseRowMd }))) ∧
    (∀ line, parseRowMd line = ((splitChar '|' line).map jsTrim).filter
        (fun cell => !cell.isEmpty && !(cell.all (fun c => c = '-')))) ∧
    parseMarkdownTable "| A | B |\n| --- | --- |\n| 1 | 2 |".toList =
      some { headers := [['A'], ['B']], rows := [[['1'], ['2']]] } := by
  refine ⟨?_, fun line => rfl, by decide⟩
  intro tableText
  constructor
  · intro h
    simp only [parseMarkdownTable]
    rw [if_pos h]
  · intro h
    simp only [parseMarkdownTable]
    rw [if_neg (by omega)]

theorem parseMarkdownTable_spec_witness :
    (2 ≤ ((splitChar '\n'
        (jsTrim "| A | B |\n| --- | --- |\n| 1 | 2 |".toList)).filter
        (fun l => !(jsTrim l).isEmpty)).length) ∧
    parseMarkdownTable "| A | B |\n| --- | --- |\n| 1 | 2 |".toList =
      some { headers := [['A'], ['B']], rows := [[['1'], ['2']]] } :=
  ⟨by decide,
    (parseMarkdownTable_spec.1 "| A | B |\n| --- | --- |\n| 1 | 2 |".toList).2
      (by decide)⟩

/-- C6 counterexample: for the short line `1 Introduction to U.S. Policy` the
fallback produces level 3 — the dot count includes the two dots of `U.S.` —
while the claim's prefix-only dot count (zero dots) predicts level
`min(4, 0 + 1) = 1`. -/
theorem patternFallback_dotCount_counterexample :
    prefixDotCount "1 Introduction to U.S. Policy".toList = 0 ∧
    (patternFallback "1 Introduction to U.S. Policy".toList).map
      (fun d => d.level) = [3] ∧
    (patternFallback "1 Introduction to U.S. Policy".toList).map
        (fun d => d.level) ≠
      [min 4 (prefixDotCount "1 Introduction to U.S. Policy".toList + 1)] :=
  ⟨by decide, by decide, by decide⟩

theorem splitChar_eq_single (sep : Char) (l : List Char)
    (h : ∀ c ∈ l, c ≠ sep) : splitChar sep l = [l] := by
  induction l with
  | nil => rfl
  | cons c rest ih =>
    have hc : c ≠ sep := h c (List.mem_cons_self c rest)
    have hrest := ih (fun d hd => h d (List.mem_cons_of_mem c hd))
    simp [splitChar, hc, hrest]

/-- C6 (amended): a short single-line title (trimmed, at most 100 characters,
no placeholder) that matches the numbered-heading pattern becomes exactly one
descriptor whose level is `min(dotCount + 1, 4)`, where `dotCount` counts the
dot characters of the WHOLE trimmed line, not only those of the leading
numeric prefix; the title `2.1 Background` still yields level 2. -/
theorem patternFallback_level_spec :
    (∀ line : List Char, (∀ c ∈ line, c ≠ '\n') → jsTrim line = line →
      line.isEmpty = false → line.length ≤ 100 →
      extractPlaceholders line = [] → matchNumberedHeading line = true →
      patternFallback line =
        [{ level := min (line.countP (fun c => c = '.') + 1) 4
           title := line
           placeholder := none }]) ∧
    (patternFallback "2.1 Background".toList).map (fun d => d.level) = [2] := by
  refine ⟨?_, by decide⟩
  intro line hnl htrim hne hlen hph hnum
  have hsplit : splitChar '\n' line = [line] := splitChar_eq_single '\n' line hnl
  have hnotlong : ¬ line.length > 100 := by omega
  simp [patternFallback, hsplit, htrim, hne, hnotlong, hph, hnum]

theorem patternFallback_level_spec_witness :
    ((∀ c ∈ "2.1 Background".toList, c ≠ '\n') ∧
      jsTrim "2.1 Background".toList = "2.1 Background".toList ∧
      ("2.1 Background".toList).isEmpty = false ∧
      ("2.1 Background".toList).length ≤ 100 ∧
      extractPlaceholders "2.1 Background".toList = [] ∧
      matchNumberedHeading "2.1 Background".toList = true) ∧
    patternFallback "2.1 Background".toList =
      [{ level := min (("2.1 Background".toList).countP (fun c => c = '.') + 1) 4
         title := "2.1 Background".toList
         placeholder := none }] :=
  ⟨⟨by decide, by decide, by decide, by decide, by decide, by decide⟩,
    patternFallback_level_spec.1 "2.1 Background".toList (by decide) (by decide)
      (by decide) (by decide) (by decide) (by decide)⟩

theorem convertContentToDocx_no_heading (content : List Char) :
    ∀ e ∈ convertContentToDocx content, isHeadingElem e = false := by
  intro e he
  simp only [convertContentToDocx, List.mem_flatMap] at he
  obtain ⟨para, _, he⟩ := he
  split at he
  · split at he
    · simp only [List.mem_singleton] at he
      subst he
      rfl
    · split at he
      · rw [List.mem_filterMap] at he
        obtain ⟨item, _, hf⟩ := he
        split at hf
        · exact absurd hf (by simp)
        · injection hf with hf
          subst hf
          rfl
      · simp only [List.mem_singleton] at he
        subst he
        rfl
  · split at he
    · rw [List.mem_filterMap] at he
      obtain ⟨item, _, hf⟩ := he
      split at hf
      · exact absurd hf (by simp)
      · injection hf with hf
        subst hf
        rfl
    · simp only [List.mem_singleton] at he
      subst he
      rfl

theorem sectionBlocks_filter (draft : ExpDraft) (t : SectionDesc) :
    (sectionBlocks draft t).filter isHeadingElem = [createHeading t.title t.level] := by
  have hbody : ∀ l, (∀ e ∈ l, isHeadingElem e = false) →
      (createHeading t.title t.level :: l).filter isHeadingElem =
        [createHeading t.title t.level] := by
    intro l hl
    rw [List.filter_cons_of_pos (by rfl), List.filter_eq_nil.mpr ?_]
    intro e he
    simp [hl e he]
  simp only [sectionBlocks]
  split
  · split
    · exact hbody _ (convertContentToDocx_no_heading _)
    · exact hbody _ (by intro e he; simp only [List.mem_singleton] at he; subst he; rfl)
  · exact hbody _ (by intro e he; simp only [List.mem_singleton] at he; subst he; rfl)

theorem bind_sectionBlocks_filter (draft : ExpDraft) (ts : List SectionDesc) :
    (ts.flatMap (sectionBlocks draft)).filter isHeadingElem =
      ts.map (fun t => createHeading t.title t.level) := by
  induction ts with
  | nil => rfl
  | cons t ts ih =>
    rw [List.flatMap_cons, List.filter_append, sectionBlocks_filter, ih]
    rfl

theorem referenceChildren_filter (refs : List RefRec) :
    (referenceChildren refs).filter isHeadingElem =
      [createHeading "References".toList 1] := by
  simp only [referenceChildren]
  rw [List.filter_cons_of_neg (by decide), List.filter_cons_of_pos (by rfl)]
  rw [List.filter_eq_nil.mpr ?_]
  intro e he
  rw [List.mem_map] at he
  obtain ⟨p, _, hp⟩ := he
  subst hp
  simp [isHeadingElem]

/-- C2: the export emits exactly one section heading per template descriptor,
in template order (with a References heading appended exactly when references
are requested and present); a descriptor whose matching draft section is
absent or has empty content gets its heading followed by the placeholder
paragraph rather than being omitted; and the concrete 5-descriptor template
with 3 populated sections renders exactly 5 section headings, 2 of them with
the placeholder text. -/
theorem generateDocx_structure_spec :
    (∀ draft tstructure opts,
      (generateDocxChildren draft tstructure opts).filter isHeadingElem =
        tstructure.map (fun t => createHeading t.title t.level) ++
          (if opts.includeReferences && !draft.references.isEmpty
           then [createHeading "References".toList 1] else [])) ∧
    (∀ draft t,
      (draft.sections.find? (fun s =>
          s.templateSectionId == some t.sid || s.templateSectionTitle == t.title)
            = none ∨
        (∃ s, draft.sections.find? (fun s =>
          s.templateSectionId == some t.sid || s.templateSectionTitle == t.title)
            = some s ∧ s.content = [])) →
      sectionBlocks draft t =
        [createHeading t.title t.level, createParagraph placeholderText .left]) ∧
    ((generateDocxChildren draftEx2 tstructEx optsEx).countP isHeadingElem = 5 ∧
      (generateDocxChildren draftEx2 tstructEx optsEx).countP isPlaceholderElem = 2) := by
  refine ⟨?_, ?_, by decide, by decide⟩
  · intro draft tstructure opts
    simp only [generateDocxChildren]
    rw [List.filter_cons_of_neg (by simp [isHeadingElem]), List.filter_append,
      bind_sectionBlocks_filter]
    by_cases h : opts.includeReferences && !draft.references.isEmpty
    · rw [if_pos h, if_pos h, referenceChildren_filter]
    · rw [if_neg h, if_neg h]
      rfl
  · intro draft t h
    rcases h with h | ⟨s, hs, hc⟩
    · simp [sectionBlocks, h]
    · simp [sectionBlocks, hs, hc]

theorem generateDocx_structure_spec_witness :
    (draftEx2.sections.find? (fun s =>
        s.templateSectionId == some (2 : Nat) || s.templateSectionTitle == "Two".toList)
          = none) ∧
    sectionBlocks draftEx2 ⟨2, 2, "Two".toList⟩ =
      [createHeading "Two".toList 2, createParagraph placeholderText .left] :=
  ⟨by decide, (generateDocx_structure_spec.2.1 draftEx2 ⟨2, 2, "Two".toList⟩
    (Or.inl (by decide)))⟩

theorem findIdx?_cons_zero {α : Type} (p : α → Bool) (x : α) (xs : List α) :
    (x :: xs).findIdx? p =
      if p x then some 0 else (xs.findIdx? p).map (fun i => i + 1) := by
  rw [List.findIdx?_cons, List.findIdx?_succ]

theorem findIdx?_some_get {α : Type} (p : α → Bool) :
    ∀ (l : List α) (i : Nat), l.findIdx? p = some i →
      ∃ x, l.get? i = some x ∧ p x = true := by
  intro l
  induction l with
  | nil => intro i h; simp [List.findIdx?] at h
  | cons a l ih =>
    intro i h
    rw [findIdx?_cons_zero] at h
    split at h
    · injection h with h
      subst h
      exact ⟨a, rfl, by assumption⟩
    · rcases Option.map_eq_some'.mp h with ⟨j, hj, rfl⟩
      obtain ⟨x, hx, hp⟩ := ih j hj
      exact ⟨x, hx, hp⟩

theorem findIdx?_set {α : Type} (p : α → Bool) (node : α) (hn : p node = true) :
    ∀ (l : List α) (i : Nat), l.findIdx? p = some i →
      (l.set i node).findIdx? p = some i := by
  intro l
  induction l with
  | nil => intro i h; simp [List.findIdx?] at h
  | cons a l ih =>
    intro i h
    rw [findIdx?_cons_zero] at h
    split at h
    · injection h with h
      subst h
      simp only [List.set]
      rw [findIdx?_cons_zero, if_pos hn]
    · rcases Option.map_eq_some'.mp h with ⟨j, hj, rfl⟩
      simp only [List.set]
      rw [findIdx?_cons_zero, if_neg (by assumption), ih j hj]
      rfl

theorem findIdx?_append_singleton {α : Type} (p : α → Bool) (node : α)
    (hn : p node = true) :
    ∀ l : List α, l.findIdx? p = none →
      (l ++ [node]).findIdx? p = some l.length := by
  intro l
  induction l with
  | nil => intro _; simp [findIdx?_cons_zero, hn]
  | cons a l ih =>
    intro h
    rw [findIdx?_cons_zero] at h
    split at h
    · exact absurd h (by simp)
    · have hl : l.findIdx? p = none := by
        rcases hfi : l.findIdx? p with _ | j
        · rfl
        · rw [hfi] at h; exact absurd h (by simp)
      rw [List.cons_append, findIdx?_cons_zero, if_neg (by assumption), ih hl]
      rfl

theorem countP_set_of_findIdx? {α : Type} (p : α → Bool) (node : α)
    (hn : p node = true) :
    ∀ (l : List α) (i : Nat), l.findIdx? p = some i →
      (l.set i node).countP p = l.countP p := by
  intro l
  induction l with
  | nil => intro i h; simp [List.findIdx?] at h
  | cons a l ih =>
    intro i h
    rw [findIdx?_cons_zero] at h
    split at h
    · injection h with h
      subst h
      simp only [List.set]
      rw [List.countP_cons, List.countP_cons, hn, (by assumption : p a = true)]
    · rcases Option.map_eq_some'.mp h with ⟨j, hj, rfl⟩
      simp only [List.set]
      rw [List.countP_cons, List.countP_cons, ih j hj]

theorem countP_pos_of_findIdx? {α : Type} (p : α → Bool) (l : List α) (i : Nat)
    (h : l.findIdx? p = some i) : 1 ≤ l.countP p := by
  obtain ⟨x, hx, hp⟩ := findIdx?_some_get p l i h
  have hmem : x ∈ l := List.get?_mem hx
  have := List.countP_pos.mpr ⟨x, hmem, hp⟩
  omega

theorem countP_zero_of_findIdx?_none {α : Type} (p : α → Bool) (l : List α)
    (h : l.findIdx? p = none) : l.countP p = 0 := by
  rw [List.countP_eq_zero]
  intro a ha
  exact (List.findIdx?_eq_none_iff.mp h a ha) ▸ (by simp)

theorem find?_setKey (m : List (Nat × Prov)) (k : Nat) (v : Prov) :
    (setKey m k v).find? (fun e => e.1 == k) = some (k, v) := by
  unfold setKey
  split
  · rename_i hany
    induction m with
    | nil => simp at hany
    | cons a m ih =>
      by_cases hk : a.1 = k
      · simp [List.find?_cons, hk]
      · have hany' : m.any (fun e => e.1 == k) = true := by
          simp only [List.any_cons] at hany
          rcases Bool.or_eq_true_iff.mp hany with h1 | h2
          · exact absurd (by simpa using h1) hk
          · exact h2
        simp only [List.map_cons]
        rw [if_neg hk, List.find?_cons_of_neg _ (by simpa using hk)]
        exact ih hany'
  · rw [List.find?_append]
    rename_i hany
    have h1 : m.find? (fun e => e.1 == k) = none := by
      rw [List.find?_eq_none]
      intro x hx hxk
      exact absurd (List.any_eq_true.mpr ⟨x, hx, hxk⟩) hany
    rw [h1]
    simp [List.find?_cons]

/-- C3: upserting the same section id twice leaves exactly one top-level node
with that id; that node consists entirely of the second call's heading and
converted content, sits at the position established before the second call,
and the provenance entry for the id is replaced by the second generation's
record — aiGenerated true, manuallyEdited false (the key is absent, hence
falsy), warnings copied from the second call, and the second call's
timestamp. -/
theorem updateDraftSection_twice_spec (d : Draft) (sd1 sd2 : SectionData)
    (t1 t2 : Nat) (hid : sd1.templateSectionId = sd2.templateSectionId)
    (hcount : d.content.countP
        (fun n => attrsId n == some sd2.templateSectionId) ≤ 1) :
    ((updateDraftSection (updateDraftSection d sd1 t1) sd2 t2).content.countP
        (fun n => attrsId n == some sd2.templateSectionId) = 1) ∧
    (∃ i,
      (updateDraftSection d sd1 t1).content.findIdx?
          (fun n => attrsId n == some sd2.templateSectionId) = some i ∧
      (updateDraftSection (updateDraftSection d sd1 t1) sd2 t2).content =
        (updateDraftSection d sd1 t1).content.set i (sectionNodeFor sd2) ∧
      (updateDraftSection (updateDraftSection d sd1 t1) sd2 t2).content.get? i =
        some (sectionNodeFor sd2)) ∧
    ((updateDraftSection (updateDraftSection d sd1 t1) sd2 t2).section_sources.find?
        (fun e => e.1 == sd2.templateSectionId) =
      some (sd2.templateSectionId, generationProv sd2 t2)) ∧
    (generationProv sd2 t2).aiGenerated = true ∧
    (generationProv sd2 t2).manuallyEdited = false ∧
    (generationProv sd2 t2).warnings = sd2.warnings ∧
    (generationProv sd2 t2).generatedAt = some t2 := by
  have hpnode2 : (fun n => attrsId n == some sd2.templateSectionId)
      (sectionNodeFor sd2) = true := by
    simp [sectionNodeFor, attrsId]
  have hpnode1 : (fun n => attrsId n == some sd2.templateSectionId)
      (sectionNodeFor sd1) = true := by
    simp [sectionNodeFor, attrsId, hid]
  have hd1 : (updateDraftSection d sd1 t1).content =
      (match d.content.findIdx? (fun n => attrsId n == some sd2.templateSectionId) with
       | some i => d.content.set i (sectionNodeFor sd1)
       | none => d.content ++ [sectionNodeFor sd1]) := by
    simp only [updateDraftSection, hid]
  have hstep1 : ∃ i1,
      (updateDraftSection d sd1 t1).content.findIdx?
        (fun n => attrsId n == some sd2.templateSectionId) = some i1 ∧
      (updateDraftSection d sd1 t1).content.countP
        (fun n => attrsId n == some sd2.templateSectionId) = 1 := by
    rcases hfi : d.content.findIdx?
        (fun n => attrsId n == some sd2.templateSectionId) with _ | i
    · refine ⟨d.content.length, ?_, ?_⟩
      · rw [hd1, hfi]
        exact findIdx?_append_singleton (fun n => attrsId n == some sd2.templateSectionId) _ hpnode1 d.content hfi
      · rw [hd1, hfi, List.countP_append,
          countP_zero_of_findIdx?_none (fun n => attrsId n == some sd2.templateSectionId) _ hfi, List.countP_cons]
        simp [hpnode1]
    · refine ⟨i, ?_, ?_⟩
      · rw [hd1, hfi]
        exact findIdx?_set (fun n => attrsId n == some sd2.templateSectionId) _ hpnode1 d.content i hfi
      · rw [hd1, hfi, countP_set_of_findIdx? (fun n => attrsId n == some sd2.templateSectionId) _ hpnode1 d.content i hfi]
        have := countP_pos_of_findIdx? (fun n => attrsId n == some sd2.templateSectionId) d.content i hfi
        omega
  obtain ⟨i1, hfi1, hc1⟩ := hstep1
  have hd2m : (updateDraftSection (updateDraftSection d sd1 t1) sd2 t2).content =
      (match (updateDraftSection d sd1 t1).content.findIdx?
          (fun n => attrsId n == some sd2.templateSectionId) with
       | some i => (updateDraftSection d sd1 t1).content.set i (sectionNodeFor sd2)
       | none => (updateDraftSection d sd1 t1).content ++ [sectionNodeFor sd2]) := by
    simp only [updateDraftSection]
  have hd2 : (updateDraftSection (updateDraftSection d sd1 t1) sd2 t2).content =
      (updateDraftSection d sd1 t1).content.set i1 (sectionNodeFor sd2) := by
    rw [hd2m, hfi1]
  refine ⟨?_, ⟨i1, hfi1, hd2, ?_⟩, ?_, rfl, rfl, rfl, rfl⟩
  · rw [hd2, countP_set_of_findIdx? (fun n => attrsId n == some sd2.templateSectionId) _ hpnode2 _ i1 hfi1, hc1]
  · obtain ⟨x, hx, _⟩ := findIdx?_some_get (fun n => attrsId n == some sd2.templateSectionId) _ i1 hfi1
    rw [hd2, List.get?_set, if_pos rfl, hx]
    rfl
  · simp only [updateDraftSection]
    exact find?_setKey _ _ _

theorem updateDraftSection_twice_spec_witness :
    (sdEx1.templateSectionId = sdEx2.templateSectionId ∧
      (({ content := [], section_sources := [] } : Draft)).content.countP
        (fun n => attrsId n == some sdEx2.templateSectionId) ≤ 1) ∧
    ((updateDraftSection (updateDraftSection
        { content := [], section_sources := [] } sdEx1 1) sdEx2 2).content.countP
        (fun n => attrsId n == some sdEx2.templateSectionId) = 1) ∧
    ((updateDraftSection (updateDraftSection
        { content := [], section_sources := [] } sdEx1 1) sdEx2 2).section_sources.find?
        (fun e => e.1 == sdEx2.templateSectionId) =
      some (sdEx2.templateSectionId, generationProv sdEx2 2)) :=
  ⟨⟨by decide, by decide⟩,
    (updateDraftSection_twice_spec
      { content := [], section_sources := [] } sdEx1 sdEx2 1 2
      (by decide) (by decide)).1,
    (updateDraftSection_twice_spec
      { content := [], section_sources := [] } sdEx1 sdEx2 1 2
      (by decide) (by decide)).2.2.1⟩

theorem dropWhile_head?_false {α : Type} (p : α → Bool) :
    ∀ (l : List α) (c : α), (l.dropWhile p).head? = some c → p c = false := by
  intro l
  induction l with
  | nil => intro c h; simp at h
  | cons a l ih =>
    intro c h
    by_cases hp : p a = true
    · rw [List.dropWhile_cons_of_pos hp] at h
      exact ih c h
    · rw [List.dropWhile_cons_of_neg hp] at h
      injection h with h
      subst h
      exact Bool.eq_false_iff.mpr hp

theorem dropWhile_eq_self_of_head {α : Type} (p : α → Bool) (l : List α)
    (h : ∀ c, l.head? = some c → p c = false) : l.dropWhile p = l := by
  cases l with
  | nil => rfl
  | cons a l => rw [List.dropWhile_cons_of_neg (by simp [h a rfl])]

theorem getLast?_dropWhile {α : Type} (p : α → Bool) :
    ∀ l : List α, l.dropWhile p ≠ [] → (l.dropWhile p).getLast? = l.getLast? := by
  intro l
  induction l with
  | nil => intro h; simp at h
  | cons a l ih =>
    intro h
    by_cases hp : p a = true
    · rw [List.dropWhile_cons_of_pos hp] at h ⊢
      have hl : l ≠ [] := by
        intro h0
        rw [h0] at h
        exact h rfl
      rw [ih h]
      obtain ⟨x, hx⟩ := Option.ne_none_iff_exists'.mp
        (fun h0 => hl (List.getLast?_eq_none_iff.mp h0))
      have hal : (a :: l).getLast? = l.getLast? := by
        show ([a] ++ l).getLast? = l.getLast?
        rw [List.getLast?_append, hx]
        rfl
      rw [hal]
    · rw [List.dropWhile_cons_of_neg hp]

theorem jsTrim_head?_false (l : List Char) (c : Char)
    (h : (jsTrim l).head? = some c) : isJsWs c = false := by
  unfold jsTrim at h
  rw [List.head?_reverse] at h
  have hz : (l.dropWhile isJsWs).reverse.dropWhile isJsWs ≠ [] := by
    intro h0
    rw [h0] at h
    simp at h
  rw [getLast?_dropWhile _ _ hz, List.getLast?_reverse] at h
  exact dropWhile_head?_false _ _ _ h

theorem jsTrim_getLast?_false (l : List Char) (c : Char)
    (h : (jsTrim l).getLast? = some c) : isJsWs c = false := by
  unfold jsTrim at h
  rw [List.getLast?_reverse] at h
  exact dropWhile_head?_false _ _ _ h

theorem jsTrim_eq_self (m : List Char)
    (h1 : ∀ c, m.head? = some c → isJsWs c = false)
    (h2 : ∀ c, m.getLast? = some c → isJsWs c = false) : jsTrim m = m := by
  unfold jsTrim
  rw [dropWhile_eq_self_of_head _ _ h1]
  rw [dropWhile_eq_self_of_head _ _ (by
    intro c hc
    rw [List.head?_reverse] at hc
    exact h2 c hc)]
  exact List.reverse_reverse m

theorem jsTrim_idem (l : List Char) : jsTrim (jsTrim l) = jsTrim l :=
  jsTrim_eq_self _ (jsTrim_head?_false l) (jsTrim_getLast?_false l)

theorem intercalate_single {α : Type} (s p : List α) :
    List.intercalate s [p] = p := by
  simp [List.intercalate]

theorem intercalate_cons2 {α : Type} (s p q : List α) (ps : List (List α)) :
    List.intercalate s (p :: q :: ps) = p ++ s ++ List.intercalate s (q :: ps) := by
  simp [List.intercalate, List.intersperse]

theorem splitNN_no_nl : ∀ p : List Char, ('\n' ∉ p) → splitNN p = [p]
  | [] => fun _ => rfl
  | [c] => fun _ => rfl
  | c :: c2 :: rest => by
    intro h
    have hc : c ≠ '\n' := fun h0 => h (h0 ▸ List.mem_cons_self c _)
    simp only [splitNN]
    rw [if_neg (by simp [hc])]
    show (match splitNN (c2 :: rest) with
      | [] => [[c]]
      | h :: t2 => (c :: h) :: t2) = [c :: c2 :: rest]
    rw [splitNN_no_nl (c2 :: rest) (fun h2 => h (List.mem_cons_of_mem c h2))]

theorem splitNN_append_sep : ∀ p w : List Char, ('\n' ∉ p) →
    splitNN (p ++ '\n' :: '\n' :: w) = p :: splitNN w
  | [], w => by
    intro _
    simp only [List.nil_append, splitNN]
    rw [if_pos (by simp)]
  | c :: p', w => by
    intro h
    have hc : c ≠ '\n' := fun h0 => h (h0 ▸ List.mem_cons_self c _)
    have hrec := splitNN_append_sep p' w (fun h2 => h (List.mem_cons_of_mem c h2))
    rcases hE : p' ++ '\n' :: '\n' :: w with _ | ⟨c2, rest⟩
    · exact absurd hE (by simp)
    · rw [hE] at hrec
      rw [List.cons_append, hE]
      simp only [splitNN]
      rw [if_neg (by simp [hc]), hrec]

theorem splitNN_intercalate :
    ∀ parts : List (List Char), parts ≠ [] →
      (∀ p ∈ parts, '\n' ∉ p) →
      splitNN (List.intercalate ['\n', '\n'] parts) = parts := by
  intro parts
  induction parts with
  | nil => intro h _; exact absurd rfl h
  | cons p ps ih =>
    intro _ hnl
    cases ps with
    | nil =>
      rw [intercalate_single]
      exact splitNN_no_nl p (hnl p (List.mem_cons_self p _))
    | cons q ps' =>
      rw [intercalate_cons2, List.append_assoc]
      have : ('\n' :: '\n' :: []) ++ List.intercalate ['\n', '\n'] (q :: ps') =
          '\n' :: '\n' :: List.intercalate ['\n', '\n'] (q :: ps') := rfl
      rw [this, splitNN_append_sep p _ (hnl p (List.mem_cons_self p _))]
      rw [ih (by simp) (fun r hr => hnl r (List.mem_cons_of_mem p hr))]

theorem head?_intercalate_sep (s : List Char) (p : List Char)
    (ps : List (List Char)) (hp : p ≠ []) :
    (List.intercalate s (p :: ps)).head? = p.head? := by
  cases ps with
  | nil => rw [intercalate_single]
  | cons q ps' =>
    rw [intercalate_cons2, List.append_assoc, List.head?_append]
    rcases hx : p.head? with _ | x
    · exact absurd (List.head?_eq_none_iff.mp hx) hp
    · rfl

theorem intercalate_ne_nil_of_head (s : List Char) (p : List Char)
    (ps : List (List Char)) (hp : p ≠ []) :
    List.intercalate s (p :: ps) ≠ [] := by
  intro h0
  have := head?_intercalate_sep s p ps hp
  rw [h0] at this
  exact hp (List.head?_eq_none_iff.mp this.symm)

theorem getLast?_intercalate_ws (s : List Char) :
    ∀ parts : List (List Char),
      (∀ p ∈ parts, p ≠ [] ∧ ∀ c, p.getLast? = some c → isJsWs c = false) →
      ∀ c, (List.intercalate s parts).getLast? = some c → isJsWs c = false := by
  intro parts
  induction parts with
  | nil => intro _ c hc; simp [List.intercalate] at hc
  | cons p ps ih =>
    intro hall c hc
    cases ps with
    | nil =>
      rw [intercalate_single] at hc
      exact (hall p (List.mem_cons_self p _)).2 c hc
    | cons q ps' =>
      rw [intercalate_cons2, List.append_assoc, List.getLast?_append] at hc
      have hne : List.intercalate s (q :: ps') ≠ [] :=
        intercalate_ne_nil_of_head s q ps'
          (hall q (List.mem_cons_of_mem p (List.mem_cons_self q _))).1
      obtain ⟨x, hx⟩ := Option.ne_none_iff_exists'.mp
        (fun h0 => hne (List.getLast?_eq_none_iff.mp h0))
      have h2 : ((s ++ List.intercalate s (q :: ps')).getLast?) = some x := by
        rw [List.getLast?_append, hx]
        rfl
      rw [h2] at hc
      injection hc with hc
      subst hc
      exact ih (fun r hr => hall r (List.mem_cons_of_mem p hr)) x hx

theorem collapseWs_cons_nonws (c0 : Char) (rest : List Char)
    (h0 : ¬ isJsWs c0 = true) :
    collapseWs (c0 :: rest) = c0 :: collapseWs rest := by
  simp [collapseWs, h0]

theorem collapseWs_single_ws (c0 : Char) (h0 : isJsWs c0 = true) :
    collapseWs [c0] = [' '] := by
  simp [collapseWs, h0]

theorem collapseWs_cons_ws_ws (c0 r0 : Char) (rest : List Char)
    (h0 : isJsWs c0 = true) (h1 : isJsWs r0 = true) :
    collapseWs (c0 :: r0 :: rest) = collapseWs (r0 :: rest) := by
  simp [collapseWs, h0, h1]

theorem collapseWs_cons_ws_nonws (c0 r0 : Char) (rest : List Char)
    (h0 : isJsWs c0 = true) (h1 : ¬ isJsWs r0 = true) :
    collapseWs (c0 :: r0 :: rest) = ' ' :: collapseWs (r0 :: rest) := by
  conv_lhs => rw [collapseWs]
  rw [if_pos h0]
  show (if isJsWs r0 = true then collapseWs (r0 :: rest)
    else ' ' :: collapseWs (r0 :: rest)) = ' ' :: collapseWs (r0 :: rest)
  rw [if_neg h1]

theorem collapseWs_space : ∀ (l : List Char) (c : Char),
    c ∈ collapseWs l → isJsWs c = true → c = ' '
  | [], c => by intro h _; simp [collapseWs] at h
  | [c0], c => by
    intro hm hw
    by_cases h0 : isJsWs c0 = true
    · rw [collapseWs_single_ws c0 h0] at hm
      simpa using hm
    · rw [collapseWs_cons_nonws c0 [] h0] at hm
      rcases List.mem_cons.mp hm with h | h
      · subst h; exact absurd hw h0
      · simp [collapseWs] at h
  | c0 :: r0 :: rest, c => by
    intro hm hw
    by_cases h0 : isJsWs c0 = true
    · by_cases h1 : isJsWs r0 = true
      · rw [collapseWs_cons_ws_ws c0 r0 rest h0 h1] at hm
        exact collapseWs_space (r0 :: rest) c hm hw
      · rw [collapseWs_cons_ws_nonws c0 r0 rest h0 h1] at hm
        rcases List.mem_cons.mp hm with h | h
        · exact h
        · exact collapseWs_space (r0 :: rest) c h hw
    · rw [collapseWs_cons_nonws c0 _ h0] at hm
      rcases List.mem_cons.mp hm with h | h
      · subst h; exact absurd hw h0
      · exact collapseWs_space (r0 :: rest) c h hw

theorem collapseWs_head_nonws (r0 : Char) (rest : List Char)
    (h1 : ¬ isJsWs r0 = true) :
    collapseWs (r0 :: rest) = r0 :: collapseWs rest :=
  collapseWs_cons_nonws r0 rest h1

theorem collapseWs_chain : ∀ l : List Char,
    List.Chain' (fun a b : Char => isJsWs a = true → isJsWs b = false)
      (collapseWs l)
  | [] => by simp [collapseWs]
  | [c0] => by
    by_cases h0 : isJsWs c0 = true
    · rw [collapseWs_single_ws c0 h0]
      simp
    · rw [collapseWs_cons_nonws c0 [] h0]
      simp [collapseWs]
  | c0 :: r0 :: rest => by
    have ih := collapseWs_chain (r0 :: rest)
    by_cases h0 : isJsWs c0 = true
    · by_cases h1 : isJsWs r0 = true
      · rw [collapseWs_cons_ws_ws c0 r0 rest h0 h1]
        exact ih
      · rw [collapseWs_cons_ws_nonws c0 r0 rest h0 h1]
        rw [List.chain'_cons']
        refine ⟨?_, ih⟩
        intro y hy _
        rw [collapseWs_head_nonws r0 rest h1] at hy
        have hyr : r0 = y := by simpa using hy
        subst hyr
        exact Bool.eq_false_iff.mpr h1
    · rw [collapseWs_cons_nonws c0 _ h0]
      rw [List.chain'_cons']
      refine ⟨?_, ih⟩
      intro y _ hw0
      exact absurd hw0 h0

theorem collapseWs_eq_self : ∀ m : List Char,
    List.Chain' (fun a b : Char => isJsWs a = true → isJsWs b = false) m →
    (∀ c ∈ m, isJsWs c = true → c = ' ') → collapseWs m = m
  | [] => by intro _ _; rfl
  | [c0] => by
    intro _ hsp
    by_cases h0 : isJsWs c0 = true
    · have hc : c0 = ' ' := hsp c0 (List.mem_singleton_self c0) h0
      rw [collapseWs_single_ws c0 h0, hc]
    · rw [collapseWs_cons_nonws c0 [] h0]
      rfl
  | c0 :: r0 :: rest => by
    intro hch hsp
    have hch' := (List.chain'_cons'.mp hch).2
    have ih := collapseWs_eq_self (r0 :: rest) hch'
      (fun c hc hw => hsp c (List.mem_cons_of_mem _ hc) hw)
    by_cases h0 : isJsWs c0 = true
    · have hr0 : isJsWs r0 = false :=
        (List.chain'_cons'.mp hch).1 r0 rfl h0
      rw [collapseWs_cons_ws_nonws c0 r0 rest h0 (by simp [hr0]), ih,
        hsp c0 (List.mem_cons_self _ _) h0]
    · rw [collapseWs_cons_nonws c0 _ h0, ih]

theorem jsTrim_infix_self (l : List Char) : jsTrim l <:+: l := by
  obtain ⟨s, hs⟩ := List.dropWhile_suffix (l := l) (p := isJsWs)
  obtain ⟨u, hu⟩ := List.dropWhile_suffix
    (l := (List.dropWhile isJsWs l).reverse) (p := isJsWs)
  refine ⟨s, u.reverse, ?_⟩
  have h1 : ((u ++ ((List.dropWhile isJsWs l).reverse.dropWhile isJsWs))).reverse =
      List.dropWhile isJsWs l := by
    rw [hu, List.reverse_reverse]
  rw [List.reverse_append] at h1
  show s ++ jsTrim l ++ u.reverse = l
  unfold jsTrim
  rw [List.append_assoc, h1, hs]

theorem normalizeWhitespace_space (l : List Char) :
    ∀ c ∈ normalizeWhitespace l, isJsWs c = true → c = ' ' := by
  intro c hm hw
  exact collapseWs_space l c ((jsTrim_infix_self (collapseWs l)).subset hm) hw

theorem normalizeWhitespace_chain (l : List Char) :
    List.Chain' (fun a b : Char => isJsWs a = true → isJsWs b = false)
      (normalizeWhitespace l) :=
  List.Chain'.infix (collapseWs_chain l) (jsTrim_infix_self (collapseWs l))

theorem normalizeWhitespace_no_nl (l : List Char) :
    '\n' ∉ normalizeWhitespace l := by
  intro hm
  have := normalizeWhitespace_space l '\n' hm (by simp [isJsWs])
  exact absurd this (by decide)

theorem normalizeWhitespace_idem (l : List Char) :
    normalizeWhitespace (normalizeWhitespace l) = normalizeWhitespace l := by
  show jsTrim (collapseWs (normalizeWhitespace l)) = _
  rw [collapseWs_eq_self _ (normalizeWhitespace_chain l)
    (normalizeWhitespace_space l)]
  exact jsTrim_idem (collapseWs l)

theorem normalizeParas_eq_intercalate (s : List Char) :
    normalizeParas s = List.intercalate ['\n', '\n']
      (((splitNN s).map normalizeWhitespace).filter (fun p => !p.isEmpty)) := by
  unfold normalizeParas
  have hmem : ∀ q ∈ ((splitNN s).map normalizeWhitespace).filter
      (fun p => !p.isEmpty), (∃ x, q = normalizeWhitespace x) ∧ q ≠ [] := by
    intro q hq
    have h1 := List.mem_of_mem_filter hq
    have h2 := List.of_mem_filter hq
    rw [List.mem_map] at h1
    obtain ⟨x, _, rfl⟩ := h1
    refine ⟨⟨x, rfl⟩, ?_⟩
    intro h0
    rw [h0] at h2
    simp at h2
  apply jsTrim_eq_self
  · intro c hc
    rcases hp : ((splitNN s).map normalizeWhitespace).filter
        (fun p => !p.isEmpty) with _ | ⟨p, ps⟩
    · rw [hp] at hc
      simp [List.intercalate] at hc
    · rw [hp] at hc
      obtain ⟨⟨x, hx⟩, hne⟩ := hmem p (by rw [hp]; exact List.mem_cons_self p _)
      rw [head?_intercalate_sep _ p ps hne] at hc
      subst hx
      exact jsTrim_head?_false (collapseWs x) c hc
  · intro c hc
    refine getLast?_intercalate_ws _ _ ?_ c hc
    intro q hq
    obtain ⟨⟨x, hx⟩, hne⟩ := hmem q hq
    subst hx
    exact ⟨hne, fun c' hc' => jsTrim_getLast?_false (collapseWs x) c' hc'⟩

theorem normalizeParas_idem (s : List Char) :
    normalizeParas (normalizeParas s) = normalizeParas s := by
  have hmem : ∀ q ∈ ((splitNN s).map normalizeWhitespace).filter
      (fun p => !p.isEmpty), (∃ x, q = normalizeWhitespace x) ∧ q ≠ [] := by
    intro q hq
    have h1 := List.mem_of_mem_filter hq
    have h2 := List.of_mem_filter hq
    rw [List.mem_map] at h1
    obtain ⟨x, _, rfl⟩ := h1
    refine ⟨⟨x, rfl⟩, ?_⟩
    intro h0
    rw [h0] at h2
    simp at h2
  rcases hp : ((splitNN s).map normalizeWhitespace).filter
      (fun p => !p.isEmpty) with _ | ⟨p, ps⟩
  · have hns : normalizeParas s = [] := by
      rw [normalizeParas_eq_intercalate, hp]
      rfl
    rw [hns]
    rfl
  · rw [hp] at hmem
    have hu : normalizeParas s = List.intercalate ['\n', '\n'] (p :: ps) := by
      rw [normalizeParas_eq_intercalate, hp]
    rw [hu, normalizeParas_eq_intercalate,
      splitNN_intercalate (p :: ps) (by simp) (fun q hq => by
        obtain ⟨⟨x, hx⟩, _⟩ := hmem q hq
        subst hx
        exact normalizeWhitespace_no_nl x)]
    have hmapid : List.map normalizeWhitespace (p :: ps) = p :: ps := by
      have hpt : ∀ q ∈ p :: ps, normalizeWhitespace q = q := by
        intro q hq
        obtain ⟨⟨x, hx⟩, _⟩ := hmem q hq
        subst hx
        exact normalizeWhitespace_idem x
      calc List.map normalizeWhitespace (p :: ps)
          = List.map (fun q => q) (p :: ps) := List.map_congr_left hpt
        _ = p :: ps := List.map_id' _
    rw [hmapid]
    rw [List.filter_eq_self.mpr (fun q hq => by
      obtain ⟨_, hne⟩ := hmem q hq
      simp [List.isEmpty_iff, hne])]

/-- C4 counterexample: cleaning is not idempotent.  Leading spaces block the
anchored code-fence strip on the first pass, but whitespace normalization
moves the fence to the start, so a second pass strips it: the input of two
spaces, a fenced-code opener and a newline cleans to a backquoted text once,
and to plain text the second time. -/
theorem cleanGeneratedText_not_idempotent :
    cleanGeneratedText (cleanGeneratedText "  ```js\nhello".toList) ≠
      cleanGeneratedText "  ```js\nhello".toList := by decide

/-- C4 (amended): cleaning is idempotent on every text whose cleaned form is a
fixed point of the artifact-strip stage (no leading code fence, preamble or
heading and no trailing fence or note exposed by normalization); the
whitespace-normalization stage itself is always idempotent. -/
theorem cleanGeneratedText_idempotent_of_strip_fixed (text : List Char)
    (h : stripArtifacts (cleanGeneratedText text) = cleanGeneratedText text) :
    cleanGeneratedText (cleanGeneratedText text) = cleanGeneratedText text := by
  rcases hu : cleanGeneratedText text with _ | ⟨c, u⟩
  · rfl
  · have hne : (cleanGeneratedText text).isEmpty = false := by
      rw [hu]
      rfl
    have htext : text.isEmpty = false := by
      cases text with
      | nil => rw [show cleanGeneratedText [] = [] from rfl] at hu; exact absurd hu (by simp)
      | cons a t => rfl
    rw [← hu]
    show cleanGeneratedText (cleanGeneratedText text) = cleanGeneratedText text
    conv_lhs => rw [cleanGeneratedText]
    rw [if_neg (by simp [hne]), h]
    have hct : cleanGeneratedText text = normalizeParas (stripArtifacts text) := by
      rw [cleanGeneratedText, if_neg (by simp [htext])]
    rw [hct, normalizeParas_idem]

theorem cleanGeneratedText_idempotent_witness :
    (stripArtifacts (cleanGeneratedText "Hello there.\n\nBye now.".toList) =
      cleanGeneratedText "Hello there.\n\nBye now.".toList) ∧
    cleanGeneratedText (cleanGeneratedText "Hello there.\n\nBye now.".toList) =
      cleanGeneratedText "Hello there.\n\nBye now.".toList :=
  ⟨by decide, cleanGeneratedText_idempotent_of_strip_fixed
    "Hello there.\n\nBye now.".toList (by decide)⟩
